import Mathlib

/-!
Verification development for the Strike BTC Profit Tracker browser extension
(`src/content.js`).  The content script scrapes transaction tables, resolves
an acquisition price per event, and replays the event stream through a
weighted-average cost-basis ledger (`buildSummary`).

Modelling conventions used throughout this file:

* JavaScript numbers are modelled by the rationals `ℚ`; every value reaching
  the ledger is a finite number in the source (the parsers map `NaN` to `0`
  via `|| 0`), so `Number.isFinite` guards are identically true in the model
  and are noted in comments where they occur.
* `Date` values are represented by their millisecond epoch value as an `Int`
  (the result of `Date.prototype.getTime`); a `null`/absent date is `none`.
* Table cells are represented by the numeric values the cell parsers
  (`parseBTC`, `parseUSD`, `parseDateFromCell`) produce for them, since every
  consumer of a cell in the source immediately parses it.
* The mutable per-minute price cache (a JS `Map`) is an association list
  threaded explicitly through the functions that touch it; network I/O is an
  oracle function passed as a parameter, and functions that may issue a
  request additionally return a `Bool` recording whether an external call
  was made.
-/

set_option maxRecDepth 4000

namespace StrikeTracker

/-- Event kind tag: the `type` field of the event objects pushed by the
extractors (`"trade"`, `"receive"`, `"send"`). -/
inductive EventType where
  | trade
  | receive
  | send
deriving DecidableEq, Repr

/-- A ledger event as produced by `processTradingTable` /
`processTransferTable` in `content.js`: a timestamp (`null` allowed), a
signed BTC quantity (positive inflow, negative outflow), and a USD unit
price. -/
structure Event where
  type : EventType
  timestamp : Option Int
  amountBTC : ℚ
  entryPrice : ℚ
deriving DecidableEq, Repr

/-- Running state of the replay loop in `buildSummary`: the two mutable
accumulators `holdingsBTC` and `basisUSD`. -/
structure LedgerState where
  holdingsBTC : ℚ
  basisUSD : ℚ
deriving DecidableEq, Repr

/-- Timestamp key used by the sort comparator in `buildSummary`:
`a.timestamp?.getTime() ?? 0` (a missing timestamp sorts as time zero). -/
def evtTime (e : Event) : Int :=
  e.timestamp.getD 0

/-- Boolean order corresponding to the sort comparator in `buildSummary`
(lines 550-559 of `content.js`): `a` may precede `b` iff the comparator
returns a value `<= 0`, i.e. earlier timestamp first, and on equal
timestamps larger (more positive) quantity first. -/
def eventLe (a b : Event) : Bool :=
  if evtTime a = evtTime b then decide (b.amountBTC ≤ a.amountBTC)
  else decide (evtTime a < evtTime b)

/-- The sort performed by `allEvents.sort(comparator)` in `buildSummary`.
`Array.prototype.sort` is a stable sort ordered by the comparator; it is
modelled as a stable insertion sort under `eventLe`, which produces the same
list (a stable sort of a list under a total preorder is unique). -/
def sortEvents (l : List Event) : List Event :=
  l.insertionSort fun a b => eventLe a b = true

/-- One step of the replay loop body (`allEvents.forEach` in `buildSummary`,
lines 564-584 of `content.js`).  Inflows add quantity and cost; outflows
either reduce the basis proportionally (when both holdings and basis are
positive) or, in the degenerate branch, subtract the outflow valuation
directly, flooring the basis at `0` in both cases.  The source reads
`event.entryPrice ?? 0`; `entryPrice` is never `null` here, so the model
uses it directly. -/
def applyEvent (s : LedgerState) (e : Event) : LedgerState :=
  let amount := e.amountBTC
  if 0 < amount then
    { holdingsBTC := s.holdingsBTC + amount
      basisUSD := s.basisUSD + e.entryPrice * amount }
  else if amount < 0 then
    let amountAbs := |amount|
    if s.holdingsBTC ≤ 0 ∨ s.basisUSD ≤ 0 then
      { holdingsBTC := s.holdingsBTC - amountAbs
        basisUSD := max 0 (s.basisUSD - e.entryPrice * amountAbs) }
    else
      let holdingsBefore := s.holdingsBTC
      let basisBefore := s.basisUSD
      let proportion := amountAbs / holdingsBefore
      let reduction := basisBefore * proportion
      { holdingsBTC := holdingsBefore - amountAbs
        basisUSD := max 0 (basisBefore - reduction) }
  else
    s

/-- The per-category breakdown computed at the end of `buildSummary`. -/
structure Breakdown where
  tradesBTC : ℚ
  receivedBTC : ℚ
  sentBTC : ℚ
deriving DecidableEq, Repr

/-- The summary object returned by `buildSummary`. -/
structure Summary where
  holdingsBTC : ℚ
  basisUSD : ℚ
  currentValue : ℚ
  netProfit : ℚ
  percent : ℚ
  breakdown : Breakdown
deriving DecidableEq, Repr

/-- Model of `buildSummary(currentPrice, {tradeEvents, receiveEvents,
sendEvents})` (lines 545-627 of `content.js`).  The filter keeps events with
`Number.isFinite(amountBTC) && amountBTC !== 0`; in the rational model the
finiteness conjunct is identically true.  The JS truthiness test
`basisUSD ? ... : 0` on a number means `basisUSD != 0`. -/
def buildSummary (currentPrice : ℚ)
    (tradeEvents receiveEvents sendEvents : List Event) : Summary :=
  let allEvents :=
    (tradeEvents ++ receiveEvents ++ sendEvents).filter
      fun e => e.amountBTC != 0
  let sorted := sortEvents allEvents
  let final := sorted.foldl applyEvent ⟨0, 0⟩
  let holdingsBTC := final.holdingsBTC
  let basisUSD := final.basisUSD
  let currentValue := holdingsBTC * currentPrice
  let netProfit := currentValue - basisUSD
  let percent := if basisUSD ≠ 0 then netProfit / basisUSD * 100 else 0
  let tradesBTC :=
    tradeEvents.foldl (fun sum e => sum + max 0 e.amountBTC) 0
  let receivedBTC :=
    receiveEvents.foldl (fun sum e => sum + max 0 e.amountBTC) 0
  let sentBTC :=
    sendEvents.foldl (fun sum e => sum + |min 0 e.amountBTC|) 0
  { holdingsBTC := holdingsBTC
    basisUSD := basisUSD
    currentValue := currentValue
    netProfit := netProfit
    percent := percent
    breakdown :=
      { tradesBTC := tradesBTC
        receivedBTC := receivedBTC
        sentBTC := sentBTC } }

/-- A candle returned by the Bitfinex endpoint: a JSON array of numbers
`[time, open, close, high, low, volume]`.  Entries of the response that are
not arrays are excluded from the model; the source skips them with the same
guard it uses for short arrays. -/
abbrev Candle := List ℚ

/-- Time component of a candle, `candle[0]` (the source only reads it on
candles of length at least 3, where it is present). -/
def candleTime (c : Candle) : ℚ :=
  c.headD 0

/-- Distance from a candle to the target timestamp:
`Math.abs(candleTime - targetMs)`. -/
def candleDiff (target : ℚ) (c : Candle) : ℚ :=
  |candleTime c - target|

/-- Price read out of the chosen candle: `closest[2] ?? closest[1] ?? null`.
Since candle entries are numbers in the model, on a candle of length at
least 3 this is just `closest[2]`. -/
def candlePrice (c : Candle) : Option ℚ :=
  (c.get? 2).orElse fun _ => c.get? 1

/-- The closest-candle scan of `fetchHistoricalBTCPrice` (lines 110-122 of
`content.js`): the mutable pair `closest`/`closestDiff` is the accumulator,
initially `null`/`+Infinity` (modelled as `none`; every real distance is
below infinity).  Candles shorter than 3 entries are skipped; a candidate
replaces the accumulator only when its distance is strictly smaller, so the
first closest candle wins ties. -/
def selectClosestGo (target : ℚ) :
    Option (Candle × ℚ) → List Candle → Option (Candle × ℚ)
  | acc, [] => acc
  | acc, c :: rest =>
    if c.length < 3 then selectClosestGo target acc rest
    else
      let diff := candleDiff target c
      match acc with
      | none => selectClosestGo target (some (c, diff)) rest
      | some (c0, d0) =>
        if diff < d0 then selectClosestGo target (some (c, diff)) rest
        else selectClosestGo target (some (c0, d0)) rest

/-- The candle selected by the scan, if any. -/
def selectClosest (target : ℚ) (data : List Candle) : Option Candle :=
  (selectClosestGo target none data).map Prod.fst

/-- The per-minute historical price cache (`historicalPriceCache`, a JS
`Map`), as an association list whose most recent insertion shadows older
entries, matching `Map.prototype.set`/`get`. -/
abbrev Cache := List (Int × Option ℚ)

/-- Network oracle for the candle endpoint: given the `start` and `end`
query parameters, produce the parsed response body, or `none` for any
transport or format failure (HTTP error, JSON parse error, or a non-array
body). -/
abbrev Net := Int → Int → Option (List Candle)

/-- Result of one call to `fetchHistoricalBTCPrice`: the returned price,
the cache afterwards, and whether an external request was issued. -/
structure FetchResult where
  price : Option ℚ
  cache : Cache
  madeCall : Bool
deriving DecidableEq, Repr

/-- Model of `fetchHistoricalBTCPrice(date)` (lines 84-133 of
`content.js`).  An invalid date (`none`) short-circuits to `null`.  A valid
date is bucketed by `Math.floor(ms / 60000)` (flooring division); a cache
hit returns the cached value, including a cached `null`.  On a miss the
candle endpoint is queried for a window of 10 minutes on each side; any
failure, a non-array body, or an empty array caches and returns `null`,
and otherwise the closest candle is selected and its price (possibly
`null` when no candle had length at least 3) is cached and returned. -/
def fetchHistoricalBTCPrice (net : Net) (cache : Cache) (date : Option Int) :
    FetchResult :=
  match date with
  | none => ⟨none, cache, false⟩
  | some ms =>
    let minuteKey := Int.fdiv ms 60000
    match cache.lookup minuteKey with
    | some v => ⟨v, cache, false⟩
    | none =>
      let windowMs : Int := 10 * 60 * 1000
      let start := max 0 (ms - windowMs)
      let stop := ms + windowMs
      match net start stop with
      | none => ⟨none, (minuteKey, (none : Option ℚ)) :: cache, true⟩
      | some data =>
        if data.isEmpty then ⟨none, (minuteKey, (none : Option ℚ)) :: cache, true⟩
        else
          let closest := selectClosest (ms : ℚ) data
          let price := closest.bind candlePrice
          ⟨price, (minuteKey, price) :: cache, true⟩

/-- A row of the Trading table, represented by the values its cells parse
to: the cell count, `parseUSD` of the sold cell, `parseBTC` of the bought
cell, and the completion date parsed by `parseDateFromCell` (both parsers
map garbled text to `0`, and an unparseable date to `null`). -/
structure TradeRow where
  numCells : Nat
  soldUSD : ℚ
  boughtBTC : ℚ
  completedAt : Option Int
deriving DecidableEq, Repr

/-- The ratio-derived price candidate of a trading row,
`soldUSD / boughtBTC` (the source guards it with `boughtBTC ? ... : null`,
and only uses it on rows with nonzero bought quantity, where it is always
a finite number, so `Number.isFinite(fallbackPrice)` is identically
true). -/
def tradeFallbackPrice (row : TradeRow) : ℚ :=
  row.soldUSD / row.boughtBTC

/-- Acquisition-price resolution for one trading row (lines 424-441 of
`content.js`): the ratio when strictly positive, else the historical price
when a completion date parsed and the lookup yields a finite positive
number, else unresolved (`none`, accounted as price `0`).  Returns the
resolved `entryPrice` and the price cache afterwards. -/
def tradeResolve (net : Net) (cache : Cache) (row : TradeRow) :
    Option ℚ × Cache :=
  if 0 < tradeFallbackPrice row then (some (tradeFallbackPrice row), cache)
  else
    match row.completedAt with
    | some t =>
      let res := fetchHistoricalBTCPrice net cache (some t)
      (match res.price with
        | some hp => if 0 < hp then some hp else none
        | none => none,
       res.cache)
    | none => (none, cache)

/-- Model of the row loop of `processTradingTable(table, currentPrice)`
(lines 402-475 of `content.js`), returning the pushed events and the final
price cache.  The column indices resolved by `createColumnLookup` always
have non-negative fallbacks (2, 3 and 1) here, so the `soldIndex >= 0` and
`completedIndex >= 0` conditionals of the source are identically true and
the indices are naturals.  A row is skipped when it has too few cells or
when `!boughtBTC`, that is when the bought quantity parses to `0` (the
parser maps `NaN` to `0`).  The `currentPrice` argument only feeds the
displayed per-row profit cells, which are presentation-only, so it does
not occur in the produced events. -/
def processTradingTable (net : Net) (currentPrice : ℚ)
    (soldIndex boughtIndex : Nat) :
    List TradeRow → Cache → List Event × Cache
  | [], cache => ([], cache)
  | row :: rest, cache =>
    if row.numCells ≤ max soldIndex boughtIndex then
      processTradingTable net currentPrice soldIndex boughtIndex rest cache
    else if row.numCells ≤ 1 then
      processTradingTable net currentPrice soldIndex boughtIndex rest cache
    else if row.boughtBTC = 0 then
      processTradingTable net currentPrice soldIndex boughtIndex rest cache
    else
      let step := tradeResolve net cache row
      let priceForBasis := step.1.getD 0
      let evt : Event := ⟨.trade, row.completedAt, row.boughtBTC, priceForBasis⟩
      let tail :=
        processTradingTable net currentPrice soldIndex boughtIndex rest step.2
      (evt :: tail.1, tail.2)

/-- Transfer direction: the `direction` argument of `processTransferTable`,
`"in"` for the Receiving table and `"out"` for the Sending table. -/
inductive Direction where
  | inbound
  | outbound
deriving DecidableEq, Repr

/-- A row of the Receiving or Sending table, represented by the values its
cells parse to: the cell count, `parseBTC` of the amount and fee cells
(signed, before the `Math.abs` the source applies), and the parsed
completion date. -/
structure TransferRow where
  numCells : Nat
  amountRaw : ℚ
  feeRaw : ℚ
  completedAt : Option Int
deriving DecidableEq, Repr

/-- Result of `processTransferTable`: the pushed events, the accumulated
BTC total, and the final price cache. -/
structure TransferResult where
  events : List Event
  totalBTC : ℚ
  cache : Cache
deriving DecidableEq, Repr

/-- The column indices a transfer table resolves through
`createColumnLookup`; the fallbacks here are all `-1`, so each index is an
integer and a negative value means the column is absent. -/
structure TransferIndices where
  amountIndex : Int
  feeIndex : Int
  completedIndex : Int
deriving DecidableEq, Repr

/-- The absolute transferred amount of a row,
`Math.abs(parseBTC(amountCell))`. -/
def transferAmount (row : TransferRow) : ℚ :=
  |row.amountRaw|

/-- The absolute fee of a row,
`feeIndex >= 0 ? Math.abs(parseBTC(feeCell)) : 0`. -/
def transferFee (idx : TransferIndices) (row : TransferRow) : ℚ :=
  if 0 ≤ idx.feeIndex then |row.feeRaw| else 0

/-- The completion date of a transfer row,
`completedIndex >= 0 ? parseDateFromCell(...) : null`. -/
def transferCompletedAt (idx : TransferIndices) (row : TransferRow) :
    Option Int :=
  if 0 ≤ idx.completedIndex then row.completedAt else none

/-- The net quantity of a transfer row: for direction `"out"` the fee is
added to the sent amount (both leave the holdings); otherwise it is the
amount alone. -/
def transferNetAmount (direction : Direction) (idx : TransferIndices)
    (row : TransferRow) : ℚ :=
  if direction = .outbound then transferAmount row + transferFee idx row
  else transferAmount row

/-- Acquisition price of a transfer event: the historical price when it is
a finite positive number, otherwise the current live price
(`currentPrice ?? 0` in the source; `currentPrice` is a number here, so
the fallback is `currentPrice` itself). -/
def transferPriceForBasis (currentPrice : ℚ) (historicalPrice : Option ℚ) :
    ℚ :=
  match historicalPrice with
  | some p => if 0 < p then p else currentPrice
  | none => currentPrice

/-- Model of the row loop of `processTransferTable(table, direction,
currentPrice)` (lines 491-533 of `content.js`).  Amount and fee are taken
in absolute value; for direction `"out"` the net quantity adds the fee.
Rows with too few cells, exactly one cell, or a zero net quantity are
skipped. -/
def processTransferRows (net : Net) (direction : Direction)
    (currentPrice : ℚ) (idx : TransferIndices) :
    List TransferRow → Cache → TransferResult
  | [], cache => ⟨[], 0, cache⟩
  | row :: rest, cache =>
    if (row.numCells : Int) ≤ idx.amountIndex then
      processTransferRows net direction currentPrice idx rest cache
    else if row.numCells = 1 then
      processTransferRows net direction currentPrice idx rest cache
    else if transferNetAmount direction idx row = 0 then
      processTransferRows net direction currentPrice idx rest cache
    else
      let res := fetchHistoricalBTCPrice net cache (transferCompletedAt idx row)
      let priceForBasis := transferPriceForBasis currentPrice res.price
      let evt : Event :=
        match direction with
        | .inbound =>
          ⟨.receive, transferCompletedAt idx row,
            transferNetAmount direction idx row, priceForBasis⟩
        | .outbound =>
          ⟨.send, transferCompletedAt idx row,
            -|transferNetAmount direction idx row|, priceForBasis⟩
      let tail :=
        processTransferRows net direction currentPrice idx rest res.cache
      ⟨evt :: tail.events,
       transferNetAmount direction idx row + tail.totalBTC, tail.cache⟩

/-- Model of `processTransferTable` including its early return when no
amount column was found (`amountIndex < 0`). -/
def processTransferTable (net : Net) (direction : Direction)
    (currentPrice : ℚ) (idx : TransferIndices) (rows : List TransferRow)
    (cache : Cache) : TransferResult :=
  if idx.amountIndex < 0 then ⟨[], 0, cache⟩
  else processTransferRows net direction currentPrice idx rows cache

/-- The pieces of page state the orchestrator reads and writes, abstracted
from the DOM: the profit banner (`#strike-profit-banner`, keyed by its
stable id) and whether the profit cells and headers of the Trading table
have been written this cycle. -/
structure Dom where
  banner : Option Summary
  tradingStamped : Bool
deriving DecidableEq, Repr

/-- Model of `insertTotalProfitBanner(table, summary)` (lines 630-684 of
`content.js`): any previous banner is removed first, and a new banner is
inserted unless the table or the summary is missing. -/
def insertTotalProfitBanner (tableAvailable : Bool)
    (summary : Option Summary) (dom : Dom) : Dom :=
  let cleared : Dom := { dom with banner := none }
  match tableAvailable, summary with
  | true, some s => { cleared with banner := some s }
  | _, _ => cleared

/-- Inputs one refresh cycle of `insertProfitColumns` reads from the page:
whether the Trading tab is active, the current-price fetch outcome (`none`
when `fetchCurrentBTCPrice` throws), the rows and resolved column indices
of the three tables, and whether each table materialized.  The model covers
a first cycle, where `checkReceivingSending` is still `true`. -/
structure PageInput where
  tradingActive : Bool
  fetchPrice : Option ℚ
  receiveIdx : TransferIndices
  sendIdx : TransferIndices
  receiveRows : List TransferRow
  sendRows : List TransferRow
  receiveTableAvailable : Bool
  sendTableAvailable : Bool
  soldIndex : Nat
  boughtIndex : Nat
  tradeRows : List TradeRow
  tradingTableAvailable : Bool

/-- Model of one refresh cycle of `insertProfitColumns` (lines 688-783 of
`content.js`), returning the DOM afterwards and the summary if the ledger
ran (`none` when the cycle aborted before reaching `buildSummary`).  When
the Trading tab is inactive the cycle is a no-op.  When the current-price
fetch fails the cycle logs and returns before any table work; no tab
navigation has happened at that point, so the restore step in the
`finally` block does not click either, and the DOM is untouched.  A
missing table for a transfer tab degrades to zero events; a missing
Trading table aborts before rendering.  Otherwise the Trading rows are
stamped with profit cells, the ledger runs, and the banner is replaced. -/
def insertProfitColumns (net : Net) (cache : Cache) (page : PageInput)
    (dom : Dom) : Dom × Option Summary :=
  if !page.tradingActive then (dom, none)
  else
    match page.fetchPrice with
    | none => (dom, none)
    | some currentPrice =>
      let receiveResult :=
        if page.receiveTableAvailable then
          processTransferTable net .inbound currentPrice page.receiveIdx
            page.receiveRows cache
        else ⟨[], 0, cache⟩
      let sendResult :=
        if page.sendTableAvailable then
          processTransferTable net .outbound currentPrice page.sendIdx
            page.sendRows receiveResult.cache
        else ⟨[], 0, receiveResult.cache⟩
      if !page.tradingTableAvailable then (dom, none)
      else
        let trading :=
          processTradingTable net currentPrice page.soldIndex page.boughtIndex
            page.tradeRows sendResult.cache
        let summary :=
          buildSummary currentPrice trading.1 receiveResult.events
            sendResult.events
        let stamped : Dom := { dom with tradingStamped := true }
        (insertTotalProfitBanner true (some summary) stamped, some summary)

/-- Specification predicate for the candle chosen by the closest-candle
scan: the candle is a valid (length at least 3) entry of the response, its
distance to the target is minimal among all valid entries, and it strictly
beats every valid entry that precedes it, so the first closest candle
wins. -/
def IsFirstClosest (target : ℚ) (data : List Candle) (c : Candle) : Prop :=
  3 ≤ c.length ∧
  ∃ pre post, data = pre ++ c :: post ∧
    (∀ d ∈ pre, 3 ≤ d.length → candleDiff target c < candleDiff target d) ∧
    (∀ d ∈ data, 3 ≤ d.length → candleDiff target c ≤ candleDiff target d)

example :
    (buildSummary 0 [] [] [⟨.send, none, -1, 0⟩]).holdingsBTC = -1 := by
  with_unfolding_all decide

example :
    (buildSummary 5 [⟨.trade, none, 1, 3⟩] [] []).netProfit = 2 := by
  with_unfolding_all decide

example :
    (buildSummary 0 [⟨.trade, none, 2, 10⟩] [] [⟨.send, none, -1, 0⟩]).basisUSD
      = 10 := by
  with_unfolding_all decide

example :
    (fetchHistoricalBTCPrice (fun _ _ => some [[2, 7, 9], [1, 5, 6]])
      [] (some 2)).price = some 9 := by
  with_unfolding_all decide

example :
    (fetchHistoricalBTCPrice (fun _ _ => none) [(0, some 4)] (some 2)).price
      = some 4 := by
  with_unfolding_all decide

theorem eventLe_total (a b : Event) : eventLe a b = true ∨ eventLe b a = true := by
  unfold eventLe
  rcases lt_trichotomy (evtTime a) (evtTime b) with h | h | h
  · left
    simp [h.ne, h]
  · rcases le_total b.amountBTC a.amountBTC with hq | hq
    · left
      simp [h, hq]
    · right
      simp [h.symm, hq]
  · right
    simp [h.ne, h]

theorem eventLe_trans (a b c : Event) (h1 : eventLe a b = true)
    (h2 : eventLe b c = true) : eventLe a c = true := by
  unfold eventLe at *
  by_cases hab : evtTime a = evtTime b <;> by_cases hbc : evtTime b = evtTime c
  · have hac : evtTime a = evtTime c := hab.trans hbc
    simp only [if_pos hab, if_pos hbc, if_pos hac, decide_eq_true_iff] at *
    exact h2.trans h1
  · simp only [if_pos hab, if_neg hbc, decide_eq_true_iff] at *
    have hlt : evtTime a < evtTime c := hab.le.trans_lt h2
    simp only [if_neg (ne_of_lt hlt), decide_eq_true_iff]
    exact hlt
  · simp only [if_neg hab, if_pos hbc, decide_eq_true_iff] at *
    have hlt : evtTime a < evtTime c := h1.trans_le hbc.le
    simp only [if_neg (ne_of_lt hlt), decide_eq_true_iff]
    exact hlt
  · simp only [if_neg hab, if_neg hbc, decide_eq_true_iff] at *
    have hlt : evtTime a < evtTime c := h1.trans h2
    simp only [if_neg (ne_of_lt hlt), decide_eq_true_iff]
    exact hlt

instance : IsTotal Event fun a b => eventLe a b = true :=
  ⟨eventLe_total⟩

instance : IsTrans Event fun a b => eventLe a b = true :=
  ⟨eventLe_trans⟩

theorem sortEvents_perm (l : List Event) : (sortEvents l).Perm l :=
  List.perm_insertionSort _ l

theorem sortEvents_sorted (l : List Event) :
    (sortEvents l).Sorted fun a b => eventLe a b = true :=
  List.sorted_insertionSort _ l

theorem eventLe_elim (a b : Event) (h : eventLe a b = true) :
    evtTime a < evtTime b ∨
      (evtTime a = evtTime b ∧ b.amountBTC ≤ a.amountBTC) := by
  unfold eventLe at h
  by_cases hab : evtTime a = evtTime b
  · right
    exact ⟨hab, by simpa [hab] using h⟩
  · left
    simpa [hab] using h

/-- C3: before replay, the merged event list is sorted ascending by
timestamp (a missing timestamp counting as time zero), ties broken by
descending quantity, so that at any shared instant every inflow (positive
quantity) comes before every outflow; the sorted list is a permutation of
the input. -/
theorem sortEvents_spec (l : List Event) :
    (sortEvents l).Perm l ∧
    (sortEvents l).Pairwise (fun a b =>
      evtTime a < evtTime b ∨
        (evtTime a = evtTime b ∧ b.amountBTC ≤ a.amountBTC)) ∧
    (sortEvents l).Pairwise (fun a b =>
      evtTime a = evtTime b → 0 < b.amountBTC → 0 < a.amountBTC) := by
  have hs := sortEvents_sorted l
  refine ⟨sortEvents_perm l, hs.imp fun h => eventLe_elim _ _ h, hs.imp ?_⟩
  intro a b h heq hb
  rcases eventLe_elim a b h with h1 | h2
  · exact absurd heq (ne_of_lt h1)
  · exact lt_of_lt_of_le hb h2.2

theorem applyEvent_pos (s : LedgerState) (e : Event) (h : 0 < e.amountBTC) :
    applyEvent s e =
      ⟨s.holdingsBTC + e.amountBTC, s.basisUSD + e.entryPrice * e.amountBTC⟩ := by
  simp [applyEvent, h]

theorem applyEvent_neg_degenerate (s : LedgerState) (e : Event)
    (h : e.amountBTC < 0) (hd : s.holdingsBTC ≤ 0 ∨ s.basisUSD ≤ 0) :
    applyEvent s e =
      ⟨s.holdingsBTC - |e.amountBTC|,
       max 0 (s.basisUSD - e.entryPrice * |e.amountBTC|)⟩ := by
  simp [applyEvent, h, hd, not_lt.mpr h.le]

theorem applyEvent_neg_proportional (s : LedgerState) (e : Event)
    (h : e.amountBTC < 0) (hh : 0 < s.holdingsBTC) (hb : 0 < s.basisUSD) :
    applyEvent s e =
      ⟨s.holdingsBTC - |e.amountBTC|,
       max 0 (s.basisUSD - s.basisUSD * (|e.amountBTC| / s.holdingsBTC))⟩ := by
  have hd : ¬ (s.holdingsBTC ≤ 0 ∨ s.basisUSD ≤ 0) := by
    push_neg
    exact ⟨hh, hb⟩
  simp [applyEvent, h, hd, not_lt.mpr h.le]

/-- C2: processing an outflow event with positive holdings and positive
basis reduces the basis proportionally (floored at zero) and subtracts the
absolute quantity from holdings, independently of the outflow entryPrice;
with non-positive holdings or basis it instead subtracts the outflow
valuation `entryPrice * |quantity|` from the basis (floored at zero) and
the absolute quantity from holdings. -/
theorem applyEvent_outflow_spec (s : LedgerState) (e : Event)
    (hneg : e.amountBTC < 0) :
    (0 < s.holdingsBTC → 0 < s.basisUSD →
      applyEvent s e =
        ⟨s.holdingsBTC - |e.amountBTC|,
         max 0 (s.basisUSD - s.basisUSD * (|e.amountBTC| / s.holdingsBTC))⟩ ∧
      ∀ p : ℚ, applyEvent s { e with entryPrice := p } = applyEvent s e) ∧
    (s.holdingsBTC ≤ 0 ∨ s.basisUSD ≤ 0 →
      applyEvent s e =
        ⟨s.holdingsBTC - |e.amountBTC|,
         max 0 (s.basisUSD - e.entryPrice * |e.amountBTC|)⟩) := by
  constructor
  · intro hh hb
    refine ⟨applyEvent_neg_proportional s e hneg hh hb, fun p => ?_⟩
    rw [applyEvent_neg_proportional s e hneg hh hb,
      applyEvent_neg_proportional s { e with entryPrice := p } hneg hh hb]
  · intro hd
    exact applyEvent_neg_degenerate s e hneg hd

theorem applyEvent_outflow_spec_witness :
    applyEvent ⟨2, 20⟩ ⟨.send, none, -1, 5⟩ = ⟨1, 10⟩ ∧
    applyEvent ⟨2, 20⟩ ⟨.send, none, -1, 7⟩ = applyEvent ⟨2, 20⟩ ⟨.send, none, -1, 5⟩ ∧
    applyEvent ⟨0, 0⟩ ⟨.send, none, -1, 5⟩ = ⟨-1, 0⟩ := by
  have h := applyEvent_outflow_spec ⟨2, 20⟩ ⟨.send, none, -1, 5⟩ (by norm_num)
  have h0 := applyEvent_outflow_spec ⟨0, 0⟩ ⟨.send, none, -1, 5⟩ (by norm_num)
  refine ⟨?_, ?_, ?_⟩
  · rw [(h.1 (by norm_num) (by norm_num)).1]
    with_unfolding_all decide
  · exact (h.1 (by norm_num) (by norm_num)).2 7
  · rw [h0.2 (Or.inl le_rfl)]
    with_unfolding_all decide

theorem applyEvent_basis_nonneg (s : LedgerState) (e : Event)
    (hb : 0 ≤ s.basisUSD) (hp : 0 ≤ e.entryPrice) :
    0 ≤ (applyEvent s e).basisUSD := by
  rcases lt_trichotomy e.amountBTC 0 with h | h | h
  · rcases le_or_lt s.holdingsBTC 0 with hh | hh
    · rw [applyEvent_neg_degenerate s e h (Or.inl hh)]
      exact le_max_left 0 _
    · rcases lt_or_eq_of_le hb with hb1 | hb1
      · rw [applyEvent_neg_proportional s e h hh hb1]
        exact le_max_left 0 _
      · rw [applyEvent_neg_degenerate s e h (Or.inr hb1.symm.le)]
        exact le_max_left 0 _
  · simp [applyEvent, h]
    exact hb
  · rw [applyEvent_pos s e h]
    exact add_nonneg hb (mul_nonneg hp h.le)

theorem foldl_applyEvent_basis_nonneg :
    ∀ (l : List Event) (s : LedgerState), 0 ≤ s.basisUSD →
      (∀ e ∈ l, 0 ≤ e.entryPrice) → 0 ≤ (l.foldl applyEvent s).basisUSD := by
  intro l
  induction l with
  | nil => intro s hb _; exact hb
  | cons e rest ih =>
    intro s hb hall
    exact ih (applyEvent s e)
      (applyEvent_basis_nonneg s e hb (hall e (List.mem_cons_self e rest)))
      fun x hx => hall x (List.mem_cons_of_mem e hx)

/-- C1 counterexample: a single outflow replayed from an empty book drives
the holdings negative, so the summary does not satisfy the claimed joint
non-negativity of holdings and basis. -/
theorem buildSummary_nonneg_cex :
    ¬ (0 ≤ (buildSummary 0 [] [] [⟨.send, none, -1, 0⟩]).holdingsBTC ∧
       0 ≤ (buildSummary 0 [] [] [⟨.send, none, -1, 0⟩]).basisUSD) := by
  with_unfolding_all decide

/-- C1 (amended): for every list of ledger events whose entry prices are
non-negative and every current price, the basis produced by the cost-basis
replay in `buildSummary` is non-negative; the holdings are not floored and
can go negative when outflows exceed holdings. -/
theorem buildSummary_basisUSD_nonneg (p : ℚ) (t r s : List Event)
    (h : ∀ e ∈ t ++ r ++ s, 0 ≤ e.entryPrice) :
    0 ≤ (buildSummary p t r s).basisUSD := by
  unfold buildSummary
  refine foldl_applyEvent_basis_nonneg _ ⟨0, 0⟩ le_rfl fun e he => ?_
  have he1 := (sortEvents_perm _).mem_iff.mp he
  exact h e (List.mem_of_mem_filter he1)

theorem buildSummary_basisUSD_nonneg_witness :
    0 ≤ (buildSummary 0 [⟨.trade, none, 1, 2⟩] [] [⟨.send, none, -1, 3⟩]).basisUSD :=
  buildSummary_basisUSD_nonneg 0 _ _ _ (by
    intro e he
    fin_cases he <;> norm_num)

theorem buildSummary_final (p : ℚ) (t r s : List Event) :
    (buildSummary p t r s).holdingsBTC =
      ((sortEvents ((t ++ r ++ s).filter fun e => e.amountBTC != 0)).foldl
        applyEvent ⟨0, 0⟩).holdingsBTC ∧
    (buildSummary p t r s).basisUSD =
      ((sortEvents ((t ++ r ++ s).filter fun e => e.amountBTC != 0)).foldl
        applyEvent ⟨0, 0⟩).basisUSD :=
  ⟨rfl, rfl⟩

theorem foldl_applyEvent_all_inflows :
    ∀ (l : List Event) (s : LedgerState), (∀ e ∈ l, 0 < e.amountBTC) →
      l.foldl applyEvent s =
        ⟨s.holdingsBTC + (l.map fun e => e.amountBTC).sum,
         s.basisUSD + (l.map fun e => e.entryPrice * e.amountBTC).sum⟩ := by
  intro l
  induction l with
  | nil => intro s _; simp
  | cons e rest ih =>
    intro s hall
    have he : 0 < e.amountBTC := hall e (List.mem_cons_self e rest)
    simp only [List.foldl_cons, applyEvent_pos s e he,
      ih _ fun x hx => hall x (List.mem_cons_of_mem e hx),
      List.map_cons, List.sum_cons, LedgerState.mk.injEq]
    constructor <;> ring

/-- C9: replaying a stream of inflow-only events yields holdings equal to
the sum of the quantities and basis equal to the sum of quantity times
entry price, independent of the order of the events. -/
theorem buildSummary_all_inflows (p : ℚ) (t r s : List Event)
    (h : ∀ e ∈ t ++ r ++ s, 0 < e.amountBTC) :
    (buildSummary p t r s).holdingsBTC =
      ((t ++ r ++ s).map fun e => e.amountBTC).sum ∧
    (buildSummary p t r s).basisUSD =
      ((t ++ r ++ s).map fun e => e.amountBTC * e.entryPrice).sum ∧
    ∀ t2 r2 s2 : List Event, (t2 ++ r2 ++ s2).Perm (t ++ r ++ s) →
      (buildSummary p t2 r2 s2).holdingsBTC = (buildSummary p t r s).holdingsBTC ∧
      (buildSummary p t2 r2 s2).basisUSD = (buildSummary p t r s).basisUSD := by
  have main : ∀ u v w : List Event, (∀ e ∈ u ++ v ++ w, 0 < e.amountBTC) →
      (buildSummary p u v w).holdingsBTC =
        ((u ++ v ++ w).map fun e => e.amountBTC).sum ∧
      (buildSummary p u v w).basisUSD =
        ((u ++ v ++ w).map fun e => e.amountBTC * e.entryPrice).sum := by
    intro u v w hall
    have hb := buildSummary_final p u v w
    have hfil :
        (u ++ v ++ w).filter (fun e => e.amountBTC != 0) = u ++ v ++ w :=
      List.filter_eq_self.mpr fun e he => by
        simpa using (hall e he).ne.symm
    have hperm2 :
        (sortEvents ((u ++ v ++ w).filter fun e => e.amountBTC != 0)).Perm
          (u ++ v ++ w) := by
      have hperm := sortEvents_perm ((u ++ v ++ w).filter fun e => e.amountBTC != 0)
      refine hperm.trans ?_
      rw [hfil]
    have hall2 : ∀ e ∈ sortEvents ((u ++ v ++ w).filter fun e => e.amountBTC != 0),
        0 < e.amountBTC := fun e he => hall e (hperm2.mem_iff.mp he)
    rw [hb.1, hb.2, foldl_applyEvent_all_inflows _ ⟨0, 0⟩ hall2]
    constructor
    · simpa using (hperm2.map fun e => e.amountBTC).sum_eq
    · have hfun : (fun e : Event => e.amountBTC * e.entryPrice)
          = fun e => e.entryPrice * e.amountBTC := funext fun e => mul_comm _ _
      rw [hfun]
      simpa using (hperm2.map fun e => e.entryPrice * e.amountBTC).sum_eq
  refine ⟨(main t r s h).1, (main t r s h).2, fun t2 r2 s2 hperm => ?_⟩
  have h2 : ∀ e ∈ t2 ++ r2 ++ s2, 0 < e.amountBTC :=
    fun e he => h e (hperm.mem_iff.mp he)
  constructor
  · rw [(main t r s h).1, (main t2 r2 s2 h2).1]
    exact (hperm.map fun e => e.amountBTC).sum_eq
  · rw [(main t r s h).2, (main t2 r2 s2 h2).2]
    exact (hperm.map fun e => e.amountBTC * e.entryPrice).sum_eq

theorem buildSummary_all_inflows_witness :
    (buildSummary 1 [⟨.trade, none, 2, 3⟩] [⟨.receive, some 5, 1, 4⟩] []).holdingsBTC = 3 ∧
    (buildSummary 1 [⟨.trade, none, 2, 3⟩] [⟨.receive, some 5, 1, 4⟩] []).basisUSD = 10 := by
  have h := buildSummary_all_inflows 1 [⟨.trade, none, 2, 3⟩]
    [⟨.receive, some 5, 1, 4⟩] [] (by
      intro e he
      fin_cases he <;> norm_num)
  refine ⟨h.1.trans ?_, h.2.1.trans ?_⟩ <;> with_unfolding_all decide

theorem selectClosestGo_some (target : ℚ) :
    ∀ (rest : List Candle) (c0 : Candle),
      ∃ c d,
        selectClosestGo target (some (c0, candleDiff target c0)) rest
          = some (c, d) ∧
        d = candleDiff target c ∧
        ((c = c0 ∧ ∀ e ∈ rest, 3 ≤ e.length → d ≤ candleDiff target e) ∨
          ∃ pre post, rest = pre ++ c :: post ∧ 3 ≤ c.length ∧
            d < candleDiff target c0 ∧
            (∀ e ∈ pre, 3 ≤ e.length → d < candleDiff target e) ∧
            (∀ e ∈ post, 3 ≤ e.length → d ≤ candleDiff target e)) := by
  intro rest
  induction rest with
  | nil =>
    intro c0
    exact ⟨c0, candleDiff target c0, rfl, rfl, Or.inl ⟨rfl, by simp⟩⟩
  | cons e rest ih =>
    intro c0
    by_cases hv : e.length < 3
    · have hstep :
          selectClosestGo target (some (c0, candleDiff target c0)) (e :: rest)
            = selectClosestGo target (some (c0, candleDiff target c0)) rest := by
        simp [selectClosestGo, hv]
      obtain ⟨c, d, heq, hd, hcase⟩ := ih c0
      refine ⟨c, d, hstep.trans heq, hd, ?_⟩
      rcases hcase with ⟨h1, h2⟩ | ⟨pre, post, hsplit, hc, hlt, hpre, hpost⟩
      · left
        refine ⟨h1, fun x hx hlen => ?_⟩
        rcases List.mem_cons.mp hx with rfl | hx2
        · omega
        · exact h2 x hx2 hlen
      · right
        refine ⟨e :: pre, post, by simp [hsplit], hc, hlt, ?_, hpost⟩
        intro x hx hlen
        rcases List.mem_cons.mp hx with rfl | hx2
        · omega
        · exact hpre x hx2 hlen
    · have hv2 : 3 ≤ e.length := by omega
      by_cases hlt : candleDiff target e < candleDiff target c0
      · have hstep :
            selectClosestGo target (some (c0, candleDiff target c0)) (e :: rest)
              = selectClosestGo target (some (e, candleDiff target e)) rest := by
          simp [selectClosestGo, hv, hlt]
        obtain ⟨c, d, heq, hd, hcase⟩ := ih e
        refine ⟨c, d, hstep.trans heq, hd, Or.inr ?_⟩
        rcases hcase with ⟨rfl, h2⟩ | ⟨pre, post, hsplit, hc, hlt2, hpre, hpost⟩
        · refine ⟨[], rest, rfl, hv2, ?_, by simp, h2⟩
          rw [hd]
          exact hlt
        · refine ⟨e :: pre, post, by simp [hsplit], hc, lt_trans hlt2 hlt, ?_, hpost⟩
          intro x hx hlen
          rcases List.mem_cons.mp hx with rfl | hx2
          · exact hlt2
          · exact hpre x hx2 hlen
      · have hge : candleDiff target c0 ≤ candleDiff target e := not_lt.mp hlt
        have hstep :
            selectClosestGo target (some (c0, candleDiff target c0)) (e :: rest)
              = selectClosestGo target (some (c0, candleDiff target c0)) rest := by
          simp [selectClosestGo, hv, hlt]
        obtain ⟨c, d, heq, hd, hcase⟩ := ih c0
        refine ⟨c, d, hstep.trans heq, hd, ?_⟩
        rcases hcase with ⟨h1, h2⟩ | ⟨pre, post, hsplit, hc, hlt2, hpre, hpost⟩
        · left
          refine ⟨h1, fun x hx hlen => ?_⟩
          rcases List.mem_cons.mp hx with rfl | hx2
          · rw [hd, h1]
            exact hge
          · exact h2 x hx2 hlen
        · right
          refine ⟨e :: pre, post, by simp [hsplit], hc, hlt2, ?_, hpost⟩
          intro x hx hlen
          rcases List.mem_cons.mp hx with rfl | hx2
          · exact lt_of_lt_of_le hlt2 hge
          · exact hpre x hx2 hlen

theorem selectClosest_spec (target : ℚ) (data : List Candle) :
    (selectClosest target data = none ∧ ∀ c ∈ data, c.length < 3) ∨
    (∃ c, selectClosest target data = some c ∧ IsFirstClosest target data c) := by
  unfold selectClosest
  induction data with
  | nil =>
    left
    exact ⟨rfl, by simp⟩
  | cons e rest ih =>
    by_cases hv : e.length < 3
    · have hstep : selectClosestGo target none (e :: rest)
          = selectClosestGo target none rest := by
        simp [selectClosestGo, hv]
      rw [hstep]
      rcases ih with ⟨h1, h2⟩ | ⟨c, hc, hfc⟩
      · left
        refine ⟨h1, fun x hx => ?_⟩
        rcases List.mem_cons.mp hx with rfl | hx2
        · exact hv
        · exact h2 x hx2
      · right
        refine ⟨c, hc, ?_⟩
        obtain ⟨hclen, pre, post, hsplit, hpre, hall⟩ := hfc
        refine ⟨hclen, e :: pre, post, by simp [hsplit], ?_, ?_⟩
        · intro x hx hlen
          rcases List.mem_cons.mp hx with rfl | hx2
          · omega
          · exact hpre x hx2 hlen
        · intro x hx hlen
          rcases List.mem_cons.mp hx with rfl | hx2
          · omega
          · exact hall x hx2 hlen
    · have hv2 : 3 ≤ e.length := by omega
      have hstep : selectClosestGo target none (e :: rest)
          = selectClosestGo target (some (e, candleDiff target e)) rest := by
        simp [selectClosestGo, hv]
      rw [hstep]
      obtain ⟨c, d, heq, hd, hcase⟩ := selectClosestGo_some target rest e
      rw [heq]
      right
      refine ⟨c, rfl, ?_⟩
      rcases hcase with ⟨rfl, h2⟩ | ⟨pre, post, hsplit, hc, hlt, hpre, hpost⟩
      · refine ⟨hv2, [], rest, rfl, by simp, ?_⟩
        intro x hx hlen
        rcases List.mem_cons.mp hx with rfl | hx2
        · exact le_refl _
        · rw [← hd]
          exact h2 x hx2 hlen
      · refine ⟨hc, e :: pre, post, by simp [hsplit], ?_, ?_⟩
        · intro x hx hlen
          rcases List.mem_cons.mp hx with rfl | hx2
          · rw [← hd]
            exact hlt
          · rw [← hd]
            exact hpre x hx2 hlen
        · intro x hx hlen
          rcases List.mem_cons.mp hx with rfl | hx2
          · rw [← hd]
            exact le_of_lt hlt
          · rw [hsplit] at hx2
            rcases List.mem_append.mp hx2 with hx3 | hx4
            · rw [← hd]
              exact le_of_lt (hpre x hx3 hlen)
            · rcases List.mem_cons.mp hx4 with rfl | hx5
              · exact le_refl _
              · rw [← hd]
                exact hpost x hx5 hlen

theorem fetchHistoricalBTCPrice_hit (net : Net) (cache : Cache) (ms : Int)
    (v : Option ℚ) (hv : cache.lookup (Int.fdiv ms 60000) = some v) :
    fetchHistoricalBTCPrice net cache (some ms) = ⟨v, cache, false⟩ := by
  simp only [fetchHistoricalBTCPrice, hv]

/-- C6: `fetchHistoricalBTCPrice` returns null for an invalid timestamp;
a valid timestamp in a cached one-minute bucket returns the cached value
(including a cached null) with no request; on a miss a transport or format
failure caches and returns null instead of propagating; and on a miss with
a successful non-empty response the candle closest to the target is
selected, earliest first on ties, and its price is cached and returned. -/
theorem fetchHistoricalBTCPrice_spec :
    (∀ (net : Net) (cache : Cache),
      fetchHistoricalBTCPrice net cache none = ⟨none, cache, false⟩) ∧
    (∀ (net : Net) (cache : Cache) (ms : Int) (v : Option ℚ),
      cache.lookup (Int.fdiv ms 60000) = some v →
      fetchHistoricalBTCPrice net cache (some ms) = ⟨v, cache, false⟩) ∧
    (∀ (net : Net) (cache : Cache) (ms : Int),
      cache.lookup (Int.fdiv ms 60000) = none →
      net (max 0 (ms - 10 * 60 * 1000)) (ms + 10 * 60 * 1000) = none →
      fetchHistoricalBTCPrice net cache (some ms)
        = ⟨none, (Int.fdiv ms 60000, none) :: cache, true⟩) ∧
    (∀ (net : Net) (cache : Cache) (ms : Int) (data : List Candle),
      cache.lookup (Int.fdiv ms 60000) = none →
      net (max 0 (ms - 10 * 60 * 1000)) (ms + 10 * 60 * 1000) = some data →
      data ≠ [] →
      fetchHistoricalBTCPrice net cache (some ms)
        = ⟨(selectClosest (ms : ℚ) data).bind candlePrice,
           (Int.fdiv ms 60000,
             (selectClosest (ms : ℚ) data).bind candlePrice) :: cache,
           true⟩ ∧
      (∀ c, selectClosest (ms : ℚ) data = some c →
        IsFirstClosest (ms : ℚ) data c) ∧
      (selectClosest (ms : ℚ) data = none → ∀ c ∈ data, c.length < 3)) := by
  refine ⟨fun net cache => rfl, fetchHistoricalBTCPrice_hit, ?_, ?_⟩
  · intro net cache ms hl hnet
    simp only [fetchHistoricalBTCPrice, hl, hnet]
  · intro net cache ms data hl hnet hdata
    have hne : data.isEmpty = false := by
      simpa [List.isEmpty_iff] using hdata
    refine ⟨?_, ?_, ?_⟩
    · simp only [fetchHistoricalBTCPrice, hl, hnet, hne, Bool.false_eq_true,
        if_false]
    · intro c hc
      rcases selectClosest_spec (ms : ℚ) data with ⟨h1, _⟩ | ⟨c0, hc0, hfc⟩
      · rw [h1] at hc
        exact absurd hc (by simp)
      · rw [hc0] at hc
        exact (Option.some.inj hc) ▸ hfc
    · intro hc
      rcases selectClosest_spec (ms : ℚ) data with ⟨_, h2⟩ | ⟨c0, hc0, _⟩
      · exact h2
      · rw [hc0] at hc
        exact absurd hc (by simp)

theorem fetchHistoricalBTCPrice_spec_witness :
    fetchHistoricalBTCPrice (fun _ _ => none) [] none = ⟨none, [], false⟩ ∧
    fetchHistoricalBTCPrice (fun _ _ => none) [(0, some 4)] (some 2)
      = ⟨some 4, [(0, some 4)], false⟩ ∧
    fetchHistoricalBTCPrice (fun _ _ => none) [] (some 2)
      = ⟨none, [(0, none)], true⟩ ∧
    fetchHistoricalBTCPrice (fun _ _ => some [[2, 7, 9], [1, 5, 6]]) [] (some 2)
      = ⟨some 9, [(0, some 9)], true⟩ ∧
    IsFirstClosest 2 [[2, 7, 9], [1, 5, 6]] [2, 7, 9] := by
  have h := fetchHistoricalBTCPrice_spec
  have h4 := h.2.2.2 (fun _ _ => some [[2, 7, 9], [1, 5, 6]]) [] 2
    [[2, 7, 9], [1, 5, 6]] (by with_unfolding_all decide) rfl
    (by with_unfolding_all decide)
  refine ⟨h.1 (fun _ _ => none) [],
    h.2.1 (fun _ _ => none) [(0, some 4)] 2 (some 4) (by with_unfolding_all decide),
    (h.2.2.1 (fun _ _ => none) [] 2 (by with_unfolding_all decide) rfl).trans
      (by with_unfolding_all decide),
    h4.1.trans (by with_unfolding_all decide),
    h4.2.1 [2, 7, 9] (by with_unfolding_all decide)⟩

/-- C8: historical price lookup is memoized per minute bucket: after a
lookup for a timestamp, a second lookup for any timestamp in the same
`floor(ms / 60000)` bucket returns the now-cached value of the first
lookup, leaves the cache unchanged and performs no external call,
whatever the network oracle of the second call would answer. -/
theorem fetchHistoricalBTCPrice_memoized (net1 net2 : Net) (cache : Cache)
    (ms1 ms2 : Int) (h : Int.fdiv ms1 60000 = Int.fdiv ms2 60000) :
    fetchHistoricalBTCPrice net2
        (fetchHistoricalBTCPrice net1 cache (some ms1)).cache (some ms2)
      = ⟨(fetchHistoricalBTCPrice net1 cache (some ms1)).price,
         (fetchHistoricalBTCPrice net1 cache (some ms1)).cache, false⟩ := by
  have hkey : ((fetchHistoricalBTCPrice net1 cache (some ms1)).cache).lookup
      (Int.fdiv ms1 60000)
      = some (fetchHistoricalBTCPrice net1 cache (some ms1)).price := by
    cases hl : cache.lookup (Int.fdiv ms1 60000) with
    | some v => simp [fetchHistoricalBTCPrice, hl]
    | none =>
      simp only [fetchHistoricalBTCPrice, hl]
      split
      · simp [List.lookup]
      · split
        · simp [List.lookup]
        · simp [List.lookup]
  exact fetchHistoricalBTCPrice_hit net2 _ ms2 _ (by rwa [← h])

theorem fetchHistoricalBTCPrice_memoized_witness :
    fetchHistoricalBTCPrice (fun _ _ => none)
        (fetchHistoricalBTCPrice (fun _ _ => some [[0, 5, 7]]) [] (some 1)).cache
        (some 2)
      = ⟨(fetchHistoricalBTCPrice (fun _ _ => some [[0, 5, 7]]) [] (some 1)).price,
         (fetchHistoricalBTCPrice (fun _ _ => some [[0, 5, 7]]) [] (some 1)).cache,
         false⟩ :=
  fetchHistoricalBTCPrice_memoized (fun _ _ => some [[0, 5, 7]]) (fun _ _ => none)
    [] 1 2 (by with_unfolding_all decide)

/-- C4 counterexample: with the Trading tab active, a previously inserted
banner in the DOM and a failing current-price fetch, the refresh cycle
leaves the old banner in place — the claim that the previous banner is
removed on fetch failure is false (the only banner removal in the source
is inside `insertTotalProfitBanner`, which is never reached on this
path). -/
theorem insertProfitColumns_fetchfail_cex :
    ((insertProfitColumns (fun _ _ => none) []
        ⟨true, none, ⟨0, 1, 2⟩, ⟨0, 1, 2⟩, [], [], true, true, 2, 3, [], true⟩
        ⟨some ⟨0, 0, 0, 0, 0, ⟨0, 0, 0⟩⟩, false⟩).1).banner ≠ none := by
  with_unfolding_all decide

/-- C4 (amended): when the current-price fetch fails, the refresh cycle
exits without performing any DOM mutation at all — in particular a
previously inserted profit banner remains in place — and `buildSummary`
is never invoked in that cycle. -/
theorem insertProfitColumns_fetchfail (net : Net) (cache : Cache)
    (page : PageInput) (dom : Dom) (h : page.fetchPrice = none) :
    insertProfitColumns net cache page dom = (dom, none) := by
  cases hb : page.tradingActive <;> simp [insertProfitColumns, h, hb]

theorem insertProfitColumns_fetchfail_witness :
    insertProfitColumns (fun _ _ => none) []
        ⟨true, none, ⟨0, 1, 2⟩, ⟨0, 1, 2⟩, [], [], true, true, 2, 3, [], true⟩
        ⟨some ⟨0, 0, 0, 0, 0, ⟨0, 0, 0⟩⟩, false⟩
      = (⟨some ⟨0, 0, 0, 0, 0, ⟨0, 0, 0⟩⟩, false⟩, none) :=
  insertProfitColumns_fetchfail (fun _ _ => none) []
    ⟨true, none, ⟨0, 1, 2⟩, ⟨0, 1, 2⟩, [], [], true, true, 2, 3, [], true⟩
    ⟨some ⟨0, 0, 0, 0, 0, ⟨0, 0, 0⟩⟩, false⟩ rfl

theorem transferNetAmount_nonneg (direction : Direction)
    (idx : TransferIndices) (row : TransferRow) :
    0 ≤ transferNetAmount direction idx row := by
  unfold transferNetAmount transferAmount transferFee
  have h2 : (0 : ℚ) ≤ if 0 ≤ idx.feeIndex then |row.feeRaw| else 0 := by
    split
    · exact abs_nonneg _
    · exact le_refl 0
  split
  · exact add_nonneg (abs_nonneg _) h2
  · exact abs_nonneg _

theorem processTransferRows_sign (net : Net) (direction : Direction)
    (currentPrice : ℚ) (idx : TransferIndices) :
    ∀ (rows : List TransferRow) (cache : Cache) (e : Event),
      e ∈ (processTransferRows net direction currentPrice idx rows cache).events →
      (direction = .inbound → 0 < e.amountBTC) ∧
      (direction = .outbound → e.amountBTC < 0) := by
  intro rows
  induction rows with
  | nil =>
    intro cache e he
    simp [processTransferRows] at he
  | cons row rest ih =>
    intro cache e he
    by_cases hg1 : (row.numCells : Int) ≤ idx.amountIndex
    · simp only [processTransferRows, if_pos hg1] at he
      exact ih cache e he
    · by_cases hg2 : row.numCells = 1
      · simp only [processTransferRows, if_neg hg1, if_pos hg2] at he
        exact ih cache e he
      · by_cases hz : transferNetAmount direction idx row = 0
        · simp only [processTransferRows, if_neg hg1, if_neg hg2, if_pos hz] at he
          exact ih cache e he
        · simp only [processTransferRows, if_neg hg1, if_neg hg2, if_neg hz,
            List.mem_cons] at he
          rcases he with rfl | he2
          · have hpos : 0 < transferNetAmount direction idx row :=
              lt_of_le_of_ne (transferNetAmount_nonneg direction idx row)
                (Ne.symm hz)
            cases direction with
            | inbound =>
              exact ⟨fun _ => hpos, fun hco => Direction.noConfusion hco⟩
            | outbound =>
              refine ⟨fun hco => Direction.noConfusion hco, fun _ => ?_⟩
              have : (0 : ℚ) < |transferNetAmount .outbound idx row| :=
                abs_pos.mpr hz
              simpa using neg_lt_zero.mpr this
          · exact ih _ e he2

/-- C10: every event emitted by `processTransferTable` has a strictly
positive `amountBTC` when the direction is `"in"` and a strictly negative
`amountBTC` when the direction is `"out"`, regardless of the sign of the
amount or fee text in the cells (absolute values are taken before the
direction is applied). -/
theorem processTransferTable_sign (net : Net) (direction : Direction)
    (currentPrice : ℚ) (idx : TransferIndices) (rows : List TransferRow)
    (cache : Cache) (e : Event)
    (he : e ∈ (processTransferTable net direction currentPrice idx rows
      cache).events) :
    (direction = .inbound → 0 < e.amountBTC) ∧
    (direction = .outbound → e.amountBTC < 0) := by
  unfold processTransferTable at he
  split at he
  · simp at he
  · exact processTransferRows_sign net direction currentPrice idx rows cache e he

theorem processTransferTable_sign_witness :
    (⟨.send, none, -3, 7⟩ : Event)
      ∈ (processTransferTable (fun _ _ => none) .outbound 7 ⟨0, 1, 2⟩
          [⟨3, -2, 1, none⟩] []).events ∧
    (⟨.send, none, -3, 7⟩ : Event).amountBTC < 0 := by
  have hm : (⟨.send, none, -3, 7⟩ : Event)
      ∈ (processTransferTable (fun _ _ => none) .outbound 7 ⟨0, 1, 2⟩
          [⟨3, -2, 1, none⟩] []).events := by
    with_unfolding_all decide
  exact ⟨hm,
    (processTransferTable_sign (fun _ _ => none) .outbound 7 ⟨0, 1, 2⟩
      [⟨3, -2, 1, none⟩] [] _ hm).2 rfl⟩

/-- C7: for a transfer row that passes the cell-count guards, a zero net
quantity skips the row in both directions; an emitted outbound event
disposes `amount + fee` (the fee is an additional disposal, not a cost),
an emitted inbound event receives `amount`, and in both directions the
acquisition price is the historical price when it resolves to a finite
positive value and the current live price otherwise. -/
theorem processTransferTable_row_spec (net : Net) (direction : Direction)
    (currentPrice : ℚ) (idx : TransferIndices) (row : TransferRow)
    (rest : List TransferRow) (cache : Cache)
    (hA : 0 ≤ idx.amountIndex)
    (hg1 : idx.amountIndex < (row.numCells : Int))
    (hg2 : row.numCells ≠ 1) :
    (transferNetAmount direction idx row = 0 →
      processTransferTable net direction currentPrice idx (row :: rest) cache
        = processTransferTable net direction currentPrice idx rest cache) ∧
    (transferNetAmount direction idx row ≠ 0 →
      processTransferTable net direction currentPrice idx (row :: rest) cache
        = ⟨(match direction with
            | .inbound =>
              (⟨.receive, transferCompletedAt idx row, transferAmount row,
                transferPriceForBasis currentPrice
                  (fetchHistoricalBTCPrice net cache
                    (transferCompletedAt idx row)).price⟩ : Event)
            | .outbound =>
              ⟨.send, transferCompletedAt idx row,
                -(transferAmount row + transferFee idx row),
                transferPriceForBasis currentPrice
                  (fetchHistoricalBTCPrice net cache
                    (transferCompletedAt idx row)).price⟩)
            :: (processTransferTable net direction currentPrice idx rest
                (fetchHistoricalBTCPrice net cache
                  (transferCompletedAt idx row)).cache).events,
           transferNetAmount direction idx row
             + (processTransferTable net direction currentPrice idx rest
                (fetchHistoricalBTCPrice net cache
                  (transferCompletedAt idx row)).cache).totalBTC,
           (processTransferTable net direction currentPrice idx rest
             (fetchHistoricalBTCPrice net cache
               (transferCompletedAt idx row)).cache).cache⟩) := by
  have hAmt : ¬ idx.amountIndex < 0 := not_lt.mpr hA
  have hng1 : ¬ (row.numCells : Int) ≤ idx.amountIndex := not_le.mpr hg1
  constructor
  · intro hz
    simp only [processTransferTable, if_neg hAmt]
    simp only [processTransferRows, if_neg hng1, if_neg hg2, if_pos hz]
  · intro hz
    simp only [processTransferTable, if_neg hAmt]
    simp only [processTransferRows, if_neg hng1, if_neg hg2, if_neg hz]
    cases direction with
    | inbound =>
      simp [transferNetAmount]
    | outbound =>
      have h1 : transferNetAmount .outbound idx row
          = transferAmount row + transferFee idx row := by
        simp [transferNetAmount]
      have h2 : |transferNetAmount .outbound idx row|
          = transferNetAmount .outbound idx row :=
        abs_of_nonneg (transferNetAmount_nonneg _ _ _)
      have h3 : |transferAmount row + transferFee idx row|
          = transferAmount row + transferFee idx row := by
        rw [← h1]
        exact h2
      simp only [h1, h3]

theorem processTransferTable_row_spec_witness :
    processTransferTable (fun _ _ => none) .outbound 7 ⟨0, 1, 2⟩
        [⟨3, -2, 1, none⟩] [] = ⟨[⟨.send, none, -3, 7⟩], 3, []⟩ ∧
    processTransferTable (fun _ _ => none) .inbound 7 ⟨0, 1, 2⟩
        [⟨3, 0, 5, none⟩] [] = ⟨[], 0, []⟩ := by
  have h1 := processTransferTable_row_spec (fun _ _ => none) .outbound 7
    ⟨0, 1, 2⟩ ⟨3, -2, 1, none⟩ [] [] (by decide) (by decide) (by decide)
  have h2 := processTransferTable_row_spec (fun _ _ => none) .inbound 7
    ⟨0, 1, 2⟩ ⟨3, 0, 5, none⟩ [] [] (by decide) (by decide) (by decide)
  refine ⟨(h1.2 (by with_unfolding_all decide)).trans
      (by with_unfolding_all decide),
    (h2.1 (by with_unfolding_all decide)).trans
      (by with_unfolding_all decide)⟩

/-- C5 counterexample: a row whose bought quantity parses to a negative
number is not skipped, contradicting the claimed skipping of all rows with
non-positive bought quantity: the source only skips `!boughtBTC`, i.e. a
zero parse, so this row emits an event carrying the negative quantity. -/
theorem processTradingTable_skip_cex :
    (processTradingTable (fun _ _ => none) 5 2 3 [⟨4, 0, -1, none⟩] []).1
      = [⟨.trade, none, -1, 0⟩] := by
  with_unfolding_all decide

theorem tradeResolve_price (net : Net) (cache : Cache) (row : TradeRow) :
    (tradeResolve net cache row).1.getD 0
      = if 0 < row.soldUSD / row.boughtBTC then row.soldUSD / row.boughtBTC
        else
          match row.completedAt with
          | some t =>
            match (fetchHistoricalBTCPrice net cache (some t)).price with
            | some hp => if 0 < hp then hp else 0
            | none => 0
          | none => 0 := by
  unfold tradeResolve tradeFallbackPrice
  by_cases hr : 0 < row.soldUSD / row.boughtBTC
  · simp [hr]
  · simp only [if_neg hr]
    cases row.completedAt with
    | none => simp
    | some t =>
      cases hp : (fetchHistoricalBTCPrice net cache (some t)).price with
      | none => simp [hp]
      | some q => by_cases hq : 0 < q <;> simp [hp, hq]

/-- C5 (amended): `processTradingTable` skips exactly the rows whose
bought quantity parses to zero — a negative bought quantity is processed —
and for every included row it emits an event whose quantity is the bought
amount and whose entry price is: the `sold/bought` ratio when strictly
positive (it is always finite here), else the historical price when a
completion timestamp parsed and the lookup yields a positive price, else
zero. -/
theorem processTradingTable_row_spec (net : Net) (currentPrice : ℚ)
    (soldIndex boughtIndex : Nat) (row : TradeRow) (rest : List TradeRow)
    (cache : Cache)
    (hg1 : max soldIndex boughtIndex < row.numCells)
    (hg2 : 1 < row.numCells) :
    (row.boughtBTC = 0 →
      processTradingTable net currentPrice soldIndex boughtIndex
          (row :: rest) cache
        = processTradingTable net currentPrice soldIndex boughtIndex rest
            cache) ∧
    (row.boughtBTC ≠ 0 →
      processTradingTable net currentPrice soldIndex boughtIndex
          (row :: rest) cache
        = ((⟨.trade, row.completedAt, row.boughtBTC,
              if 0 < row.soldUSD / row.boughtBTC then
                row.soldUSD / row.boughtBTC
              else
                match row.completedAt with
                | some t =>
                  match (fetchHistoricalBTCPrice net cache (some t)).price with
                  | some hp => if 0 < hp then hp else 0
                  | none => 0
                | none => 0⟩ : Event)
            :: (processTradingTable net currentPrice soldIndex boughtIndex
                rest (tradeResolve net cache row).2).1,
           (processTradingTable net currentPrice soldIndex boughtIndex rest
             (tradeResolve net cache row).2).2)) := by
  have hng1 : ¬ row.numCells ≤ max soldIndex boughtIndex := not_le.mpr hg1
  have hng2 : ¬ row.numCells ≤ 1 := not_le.mpr hg2
  constructor
  · intro h0
    simp only [processTradingTable, if_neg hng1, if_neg hng2, if_pos h0]
  · intro hne
    simp only [processTradingTable, if_neg hng1, if_neg hng2, if_neg hne]
    rw [tradeResolve_price]

theorem processTradingTable_row_spec_witness :
    processTradingTable (fun _ _ => none) 7 2 3 [⟨4, 10, 2, none⟩] []
      = ([⟨.trade, none, 2, 5⟩], []) ∧
    processTradingTable (fun _ _ => none) 7 2 3 [⟨4, 10, 0, none⟩] []
      = ([], []) := by
  have h1 := processTradingTable_row_spec (fun _ _ => none) 7 2 3
    ⟨4, 10, 2, none⟩ [] [] (by decide) (by decide)
  have h2 := processTradingTable_row_spec (fun _ _ => none) 7 2 3
    ⟨4, 10, 0, none⟩ [] [] (by decide) (by decide)
  refine ⟨(h1.2 (by with_unfolding_all decide)).trans
      (by with_unfolding_all decide),
    (h2.1 rfl).trans (by with_unfolding_all decide)⟩

end StrikeTracker
